import Mathlib

/-!
Verification of the grocery-finder repository against its natural-language
specification.

The repository under verification consists of a Next.js frontend
(`src/frontend`) plus infrastructure configuration; the backend price
engine described by the spec (Normalizer, Product Resolver, Price Store,
Comparison Engine, Trend Predictor, Ingestion Orchestrator) is not present
under `src/` — only its docker/service scaffolding and its frontend callers
are.  Components that exist in `src/` are embedded from the source;
components absent from `src/` are modelled from the spec, each marked
`Modelled from the spec:` in its doc comment.
-/

namespace GroceryFinder

/-! ## Username validation (src/frontend/src/utils/validation.ts) -/

/-- From `validation.ts`: the character class `[a-zA-Z0-9]` of the regex
used by `validateUsername`. -/
def isAlnumAscii (c : Char) : Bool :=
  (('a' ≤ c) && (c ≤ 'z')) || (('A' ≤ c) && (c ≤ 'Z')) || (('0' ≤ c) && (c ≤ '9'))

/-- From `validation.ts`: `validateUsername` tests the anchored regex
`[a-zA-Z0-9]+` against the whole string: at least one character, every
character alphanumeric ASCII. -/
def validateUsername (username : String) : Bool :=
  !username.data.isEmpty && username.data.all isAlnumAscii

/-! ## Auth store (src/frontend/src/store/auth.ts) -/

/-- From `src/frontend/src/types/auth.ts`: the `User` interface. -/
structure User where
  id : Option String
  username : String
  email : String
  full_name : Option String
deriving Repr, DecidableEq

/-- From `src/frontend/src/types/auth.ts`: the `AuthState` interface, the
state portion of the zustand store in `auth.ts`. -/
structure AuthState where
  user : Option User
  token : Option String
  isAuthenticated : Bool
  isLoading : Bool
  error : Option String
deriving Repr, DecidableEq

/-- From `auth.ts`: the initial state of `useAuthStore`. -/
def initialAuthState : AuthState :=
  { user := none, token := none, isAuthenticated := false,
    isLoading := false, error := none }

/-- Each `set({...})` call performed by the operations of `useAuthStore`
(`login`, `register`, `logout`, `clearError`), at the granularity at which
the store state is actually updated, so that intermediate states of the
async operations are reachable states of the model. -/
inductive AuthStep where
  | loginStart
  | loginSuccess (token : String) (user : User)
  | loginFailure (msg : String)
  | registerStart
  | registerSuccess
  | registerFailure (msg : String)
  | logout
  | clearError

/-- From `auth.ts`: the partial state updates each operation performs.
`loginStart`/`registerStart` are the `set({ isLoading: true, error: null })`
at the top of `login`/`register`; `loginSuccess` is the success `set` of
`login`; `loginFailure` is its catch handler; `registerSuccess` and
`registerFailure` are the corresponding updates of `register`. -/
def applyStep (s : AuthState) : AuthStep → AuthState
  | .loginStart => { s with isLoading := true, error := none }
  | .loginSuccess t u =>
      { s with token := some t, user := some u, isAuthenticated := true,
               error := none, isLoading := false }
  | .loginFailure m =>
      { s with user := none, token := none, isAuthenticated := false,
               error := some m, isLoading := false }
  | .registerStart => { s with isLoading := true, error := none }
  | .registerSuccess => { s with isLoading := false }
  | .registerFailure m => { s with error := some m, isLoading := false }
  | .logout =>
      { s with user := none, token := none, isAuthenticated := false,
               error := none }
  | .clearError => { s with error := none }

/-- The store state reached from the initial state by a sequence of
update steps. -/
def runAuth (steps : List AuthStep) : AuthState :=
  steps.foldl applyStep initialAuthState

/-- The consistency invariant of the auth store: `isAuthenticated` implies
both `token` and `user` are non-null. -/
def authConsistent (s : AuthState) : Bool :=
  !s.isAuthenticated || (s.token.isSome && s.user.isSome)

/-- From `auth.ts`: the `login` operation as a function of the outcomes of
its two API calls (`authApi.login`, which yields `access_token`, and
`authApi.getCurrentUser`).  Returns the promise outcome (`Except`: a
rejection carries the error message it rethrows) together with the final
store state.  The `localStorage` writes have no effect on store state and
are not modelled. -/
def login (s : AuthState) (loginApi : Except String String)
    (getUserApi : String → Except String User) :
    Except String Unit × AuthState :=
  let s1 := applyStep s .loginStart
  match loginApi with
  | .error msg => (.error msg, applyStep s1 (.loginFailure msg))
  | .ok token =>
    match getUserApi token with
    | .error msg => (.error msg, applyStep s1 (.loginFailure msg))
    | .ok user => (.ok (), applyStep s1 (.loginSuccess token user))

/-! ## Price Store (spec §3, §4.4) -/

/-- Modelled from the spec: the backend Price Store is absent from `src/`
(only `services/price_service/requirements.txt` and frontend callers
exist).  A `PriceObservation` is `(product id, store id, price, currency,
observed-at)` (spec §3), immutable once written.  `unitPrice` carries the
normalized price-per-unit from the NormalizedListing when unit data was
parseable, which the Comparison Engine (§4.5) sorts by. -/
structure PriceObservation where
  productId : Nat
  storeId : Nat
  price : Int
  unitPrice : Option Int
  currency : String
  observedAt : Nat
deriving Repr, DecidableEq

/-- Modelled from the spec: the append-only Price Store state (§4.4), the
list of recorded observations in write order. -/
abbrev PriceStore := List PriceObservation

/-- Modelled from the spec: `record(...)` appends a PriceObservation;
never overwrites (§4.4). -/
def record (st : PriceStore) (o : PriceObservation) : PriceStore :=
  st ++ [o]

/-- The filter used by `history`: match the product id, the store id when
given, and the `since` lower bound when given. -/
def matchesQuery (productId : Nat) (storeId : Option Nat)
    (since : Option Nat) (o : PriceObservation) : Bool :=
  o.productId == productId &&
    (match storeId with
     | none => true
     | some sid => o.storeId == sid) &&
    (match since with
     | none => true
     | some t => t ≤ o.observedAt)

/-- Comparison by observation time, the order `history` sorts by. -/
def obsLe (a b : PriceObservation) : Bool :=
  a.observedAt ≤ b.observedAt

/-- Modelled from the spec: `history(product_id, store_id?, since?)`
produces a time-ordered, re-queryable sequence of PriceObservations
(§4.4): the matching observations sorted by observed-at. -/
def history (st : PriceStore) (productId : Nat) (storeId : Option Nat)
    (since : Option Nat) : List PriceObservation :=
  (st.filter (matchesQuery productId storeId since)).mergeSort obsLe

/-- Modelled from the spec: the observation-reassignment step of merging
Product A into Product B (§4.3): every PriceObservation of A is reassigned
to B; nothing is deleted. -/
def mergeObservations (st : PriceStore) (a b : Nat) : PriceStore :=
  st.map (fun o => if o.productId = a then { o with productId := b } else o)

/-- A concrete pre-merge store: product 1 has two observations, product 2
has one. -/
def demoStore : PriceStore :=
  [ { productId := 1, storeId := 10, price := 199, unitPrice := none,
      currency := "USD", observedAt := 5 },
    { productId := 2, storeId := 11, price := 210, unitPrice := none,
      currency := "USD", observedAt := 6 },
    { productId := 1, storeId := 11, price := 205, unitPrice := none,
      currency := "USD", observedAt := 7 } ]

/-! ## Product Resolver (spec §4.3) -/

/-- Modelled from the spec: stopwords stripped during canonicalization
(§4.3 "lowercase, strip stopwords/brand noise, collapse whitespace"). -/
def stopwords : List String := ["the", "a", "an", "of", "with"]

/-- Modelled from the spec: the canonical form of a listing name (§4.3):
lowercase, split on whitespace and punctuation, drop empty tokens and
stopwords.  The canonical name is the resulting token set, which is what
the token-set overlap similarity of §4.3 compares. -/
def canonicalTokens (s : String) : Finset String :=
  ((s.toLower.split (fun c => c = ' ' || c = ',' || c = '.' || c = '-')).filter
    (fun t => t ≠ "" && !stopwords.contains t)).toFinset

/-- Modelled from the spec: token-set overlap similarity (§4.3), as an
integer percentage: 100 · |q ∩ a| / |q ∪ a|. -/
def tokenOverlapScore (q a : Finset String) : Nat :=
  100 * (q ∩ a).card / (q ∪ a).card

/-- Modelled from the spec: the similarity of a query name against one
stored alias: identical canonical names score the maximum 100, otherwise
the token-set overlap percentage. -/
def aliasScore (q a : String) : Nat :=
  if canonicalTokens q = canonicalTokens a then 100
  else tokenOverlapScore (canonicalTokens q) (canonicalTokens a)

/-- Modelled from the spec: a canonical Product (§3): stable identifier,
canonical name, set of known aliases. -/
structure Product where
  pid : Nat
  canonicalName : String
  aliases : List String
deriving Repr, DecidableEq

/-- Modelled from the spec: the Resolver's catalog state: the products in
creation order plus the next fresh identifier. -/
structure Catalog where
  products : List Product
  nextId : Nat
deriving Repr, DecidableEq

/-- Modelled from the spec: the similarity of a query against a Product is
the best score over its aliases (§4.3). -/
def prodScore (q : String) (p : Product) : Nat :=
  (p.aliases.map (aliasScore q)).foldr max 0

/-- Modelled from the spec: best-candidate selection (§4.3): the first
product attaining the maximal similarity score (earlier products win
ties, making selection deterministic). -/
def pickBest (q : String) : List Product → Option (Product × Nat)
  | [] => none
  | p :: ps =>
    match pickBest q ps with
    | none => some (p, prodScore q p)
    | some (r, s) =>
      if s ≤ prodScore q p then some (p, prodScore q p) else some (r, s)

/-- The per-product update performed when a new alias is attached to the
product with identifier `t`. -/
def updateFn (t : Nat) (name : String) (p : Product) : Product :=
  if p.pid = t then { p with aliases := name :: p.aliases } else p

/-- Modelled from the spec: attach the listing as a new alias of the
matched Product (§4.3). -/
def attachAlias (c : Catalog) (t : Nat) (name : String) : Catalog :=
  { c with products := c.products.map (updateFn t name) }

/-- Modelled from the spec: a new Product created from an unmatched
listing, with the listing's name as its sole alias (§4.3). -/
def newProduct (nid : Nat) (name : String) : Product :=
  { pid := nid, canonicalName := name, aliases := [name] }

/-- Modelled from the spec: the Product Resolver (§4.3).  If the best
candidate's similarity is at least the configured threshold, attach the
listing as a new alias of that Product and return its id; otherwise
create a new Product with the listing's name as its sole alias. -/
def resolveListing (c : Catalog) (name : String) (threshold : Nat) :
    Nat × Catalog :=
  match pickBest name c.products with
  | some (r, s) =>
    if threshold ≤ s then (r.pid, attachAlias c r.pid name)
    else (c.nextId,
      { products := c.products ++ [newProduct c.nextId name],
        nextId := c.nextId + 1 })
  | none =>
    (c.nextId,
      { products := c.products ++ [newProduct c.nextId name],
        nextId := c.nextId + 1 })

/-! ## Comparison Engine (spec §4.5) -/

/-- Modelled from the spec: an entry of the ranked store/price list
returned by the Comparison Engine (§4.5, §6), the shape consumed by the
frontend `PriceComparisonPage`; `stale` is the freshness flag of the
stale-data policy. -/
structure RankedPrice where
  storeId : Nat
  price : Int
  unitPrice : Option Int
  observedAt : Nat
  stale : Bool
deriving Repr, DecidableEq

/-- The ranking key of §4.5: normalized price-per-unit where unit data is
available, else the raw price. -/
def effectivePrice (e : RankedPrice) : Int :=
  e.unitPrice.getD e.price

/-- The ranking order of §4.5: ascending effective price, ties broken by
store id for determinism. -/
def rankedLe (a b : RankedPrice) : Bool :=
  effectivePrice a < effectivePrice b ||
    (effectivePrice a == effectivePrice b && a.storeId ≤ b.storeId)

/-- The later of two observations (used to select the most recent one). -/
def laterOf (a b : PriceObservation) : PriceObservation :=
  if a.observedAt < b.observedAt then b else a

/-- Modelled from the spec: `latest(product_id)` support (§4.4): the most
recent observation of a product at one store, if any. -/
def latestForStore (st : PriceStore) (p sid : Nat) : Option PriceObservation :=
  match st.filter (matchesQuery p (some sid) none) with
  | [] => none
  | o :: os => some (os.foldl laterOf o)

/-- The store ids carrying a product in the snapshot. -/
def productStoreIds (st : PriceStore) (p : Nat) : List Nat :=
  ((st.filter (matchesQuery p none none)).map (fun o => o.storeId)).dedup

/-- Flag an observation with the stale-data policy of §4.5: older than the
freshness window means flagged stale, not excluded. -/
def toRanked (now window : Nat) (o : PriceObservation) : RankedPrice :=
  { storeId := o.storeId, price := o.price, unitPrice := o.unitPrice,
    observedAt := o.observedAt, stale := decide (o.observedAt + window < now) }

/-- Modelled from the spec: the per-candidate ranking of §4.5: the latest
observation per store, flagged for staleness, sorted ascending by the
ranking key with ties broken by store id. -/
def rankProduct (st : PriceStore) (now window : Nat) (p : Nat) :
    List RankedPrice :=
  (((productStoreIds st p).filterMap (latestForStore st p)).map
    (toRanked now window)).mergeSort rankedLe

/-- Modelled from the spec: one entry of a `compareByName` response, the
`PriceComparisonResult` shape of
`src/frontend/src/types/priceComparison.ts`. -/
structure ComparisonResult where
  productId : Nat
  productName : String
  prices : List RankedPrice
deriving Repr, DecidableEq

/-- Modelled from the spec: query resolution of §4.5: fuzzy match of the
query text against canonical names/aliases, same technique as §4.3. -/
def queryCandidates (cat : Catalog) (query : String) (threshold : Nat) :
    List Product :=
  cat.products.filter (fun p => threshold ≤ prodScore query p)

/-- Modelled from the spec: `compareByName(query, limit)` (§4.5): for each
candidate product, the latest observation per store ranked ascending with
staleness flags, truncated to the cheapest `limit` stores. -/
def compareByName (st : PriceStore) (cat : Catalog) (query : String)
    (threshold now window limit : Nat) : List ComparisonResult :=
  (queryCandidates cat query threshold).map (fun p =>
    { productId := p.pid, productName := p.canonicalName,
      prices := (rankProduct st now window p.pid).take limit })

/-- Adjacent-pairs check that a ranked list is ascending in the §4.5
order. -/
def sortedByEffectivePrice : List RankedPrice → Bool
  | [] => true
  | [_] => true
  | a :: b :: rest => rankedLe a b && sortedByEffectivePrice (b :: rest)

/-! ## Ingestion Orchestrator (spec §5, §7) -/

/-- Modelled from the spec: the outcome of one store's Source Adapter run
within an orchestrator sweep (§5): either the observations that reached
the Normalizer → Resolver → Store pipeline, or a permanent failure after
bounded retries. -/
inductive AdapterOutcome where
  | fetched (items : List PriceObservation)
  | failed (err : String)

def isFetched : AdapterOutcome → Bool
  | .fetched _ => true
  | .failed _ => false

/-- Modelled from the spec: the write path of one orchestrator sweep:
successful batches are recorded in order; a failed store contributes no
observations (§7: per-item and per-store failures are contained). -/
def ingestStore (st : PriceStore) : List (Nat × AdapterOutcome) → PriceStore
  | [] => st
  | b :: bs =>
    match b.2 with
    | .fetched items => ingestStore (items.foldl record st) bs
    | .failed _ => ingestStore st bs

/-- Modelled from the spec: the per-store failures reported in the
ingestion run summary (§6, §7). -/
def failedStores (batches : List (Nat × AdapterOutcome)) : List Nat :=
  (batches.filter (fun b => !isFetched b.2)).map (fun b => b.1)

/-- Modelled from the spec: one orchestrator sweep: the updated Price
Store plus the run summary of failed stores. -/
def runIngestion (st : PriceStore) (batches : List (Nat × AdapterOutcome)) :
    PriceStore × List Nat :=
  (ingestStore st batches, failedStores batches)

/-! ## Trend Predictor (spec §4.6) -/

/-- Modelled from the spec: Trend Predictor configuration (§4.6): the
minimum observation count required for training (the default rejects
products with sparse history) and the forecast horizon. -/
structure PredictorConfig where
  minObservations : Nat
  horizon : Nat

/-- Modelled from the spec: documented defaults (§4.6, §9): forecasts
need at least 3 observations and predict 7 days ahead. -/
def defaultPredictorConfig : PredictorConfig :=
  { minObservations := 3, horizon := 7 }

/-- Modelled from the spec: a Forecast record (§3). -/
structure Forecast where
  productId : Nat
  generatedAt : Nat
  horizon : Nat
  predictedPrice : Int
  errorEstimate : Int
  modelVersion : Nat
deriving Repr, DecidableEq

/-- Modelled from the spec: the result of a forecast request (§4.6):
`insufficientData` is a legitimate terminal state, not an error. -/
inductive ForecastResult where
  | insufficientData
  | ready (f : Forecast)
deriving Repr, DecidableEq

/-- Modelled from the spec: the lightweight linear-trend fit of §4.6:
slope between the first and last observation of the (time-ordered)
history, extrapolated over the horizon. -/
def fitLinearTrend (cfg : PredictorConfig) (p now : Nat)
    (h : List PriceObservation) : Forecast :=
  match h with
  | [] =>
    { productId := p, generatedAt := now, horizon := cfg.horizon,
      predictedPrice := 0, errorEstimate := 0, modelVersion := 1 }
  | o :: os =>
    let last := os.foldl laterOf o
    let dt : Int := (last.observedAt : Int) - (o.observedAt : Int)
    let slope : Int := (last.price - o.price) / (max 1 dt)
    { productId := p, generatedAt := now, horizon := cfg.horizon,
      predictedPrice := last.price + slope * (cfg.horizon : Int),
      errorEstimate := (last.price - o.price).natAbs,
      modelVersion := 1 }

/-- Modelled from the spec: a forecast request (§4.6): histories with
fewer observations than the configured minimum yield `insufficientData`;
otherwise a model is fitted over the product's history. -/
def requestForecast (cfg : PredictorConfig) (p now : Nat) (st : PriceStore) :
    ForecastResult :=
  let h := history st p none none
  if h.length < cfg.minObservations then .insufficientData
  else .ready (fitLinearTrend cfg p now h)

/-- A store holding exactly two observations of product 1. -/
def twoObsStore : PriceStore :=
  [ { productId := 1, storeId := 10, price := 199, unitPrice := none,
      currency := "USD", observedAt := 5 },
    { productId := 1, storeId := 11, price := 210, unitPrice := none,
      currency := "USD", observedAt := 6 } ]

/-! ## Normalizer (spec §4.2) -/

/-- Decimal digit to its ASCII character (48 is the code of the zero
character); out-of-range values map to the character after the nine. -/
def digitChar (d : Nat) : Char :=
  Char.ofNat (48 + min d 10)

/-- ASCII digit character back to its value; anything else rejects. -/
def charToDigit (c : Char) : Option Nat :=
  if '0' ≤ c ∧ c ≤ '9' then some (c.toNat - 48) else none

/-- Big-endian decimal digit characters of `n`; fuel-based recursion
(any fuel of at least `n` suffices). -/
def toDigitsFuel : Nat → Nat → List Char
  | 0, _ => []
  | f + 1, n =>
    if n < 10 then [digitChar n]
    else toDigitsFuel f (n / 10) ++ [digitChar (n % 10)]

/-- Big-endian decimal digit characters of `n`. -/
def natDigits (n : Nat) : List Char :=
  toDigitsFuel (n + 1) n

/-- One step of digit-string parsing: accumulate a decimal digit, or fail
on a non-digit character. -/
def pstep (acc : Option Nat) (c : Char) : Option Nat :=
  match acc, charToDigit c with
  | some a, some d => some (a * 10 + d)
  | _, _ => none

/-- Parse a big-endian digit string; empty input parses as 0. -/
def parseDigits (cs : List Char) : Option Nat :=
  cs.foldl pstep (some 0)

/-- Modelled from the spec: the characters the Normalizer strips from a
raw price string (§4.2): currency symbols, thousands separators,
whitespace. -/
def isStrippedChar (c : Char) : Bool :=
  c = '$' || c = ',' || c = ' '

/-- Split a character list at its first decimal point, if any. -/
def splitAtDot : List Char → List Char × Option (List Char)
  | [] => ([], none)
  | c :: rest =>
    if c = '.' then ([], some rest)
    else ((c :: (splitAtDot rest).1), (splitAtDot rest).2)

/-- Modelled from the spec: the Normalizer's price parsing (§4.2): strip
currency symbols and thousands separators, interpret `.` as the decimal
point, convert to a fixed-point integer in minor currency units (two
decimal places); prices that do not parse are rejected with `none`
(`NormalizationError`). -/
def normalizePrice (s : String) : Option Int :=
  if (s.data.filter (fun c => !isStrippedChar c)).isEmpty then none
  else
    match splitAtDot (s.data.filter (fun c => !isStrippedChar c)) with
    | (ip, none) => (parseDigits ip).map (fun k : Nat => (k : Int) * 100)
    | (ip, some fp) =>
      if 2 < fp.length then none
      else
        match parseDigits ip, parseDigits fp with
        | some i, some f =>
          some (((i * 100 + f * 10 ^ (2 - fp.length) : Nat) : Int))
        | _, _ => none

/-- Modelled from the spec: re-render a minor-units price in the locale
price format `D.DD` (§8's round-trip property). -/
def renderLocale (m : Int) : String :=
  { data := natDigits (m.toNat / 100) ++
      ['.', digitChar (m.toNat % 100 / 10), digitChar (m.toNat % 10)] }

/-! ## Theorems -/

/-- C10: `validateUsername` returns true iff the string is non-empty and
consists solely of ASCII letters and digits; in particular it is false for
the empty string and for strings containing spaces, underscores, or other
punctuation. -/
theorem validateUsername_alnum_iff :
    (∀ s : String, validateUsername s = true ↔
      s ≠ "" ∧ ∀ c ∈ s.data,
        ('a' ≤ c ∧ c ≤ 'z') ∨ ('A' ≤ c ∧ c ≤ 'Z') ∨ ('0' ≤ c ∧ c ≤ '9')) ∧
    validateUsername "" = false ∧
    validateUsername "user name" = false ∧
    validateUsername "user_name" = false ∧
    validateUsername "user!" = false ∧
    validateUsername "User123" = true := by
  refine ⟨fun s => ?_, by decide, by decide, by decide, by decide, by decide⟩
  unfold validateUsername
  rw [Bool.and_eq_true, List.all_eq_true]
  constructor
  · rintro ⟨h1, h2⟩
    refine ⟨?_, fun c hc => ?_⟩
    · intro hs
      subst hs
      simp at h1
    · have := h2 c hc
      simp only [isAlnumAscii, Bool.or_eq_true, Bool.and_eq_true,
        decide_eq_true_eq] at this
      tauto
  · rintro ⟨h1, h2⟩
    refine ⟨?_, fun c hc => ?_⟩
    · rcases s with ⟨l⟩
      cases l with
      | nil => exact absurd rfl h1
      | cons c cs => rfl
    · have := h2 c hc
      simp only [isAlnumAscii, Bool.or_eq_true, Bool.and_eq_true,
        decide_eq_true_eq]
      tauto

theorem authConsistent_foldl (steps : List AuthStep) :
    ∀ s : AuthState, authConsistent s = true →
      authConsistent (steps.foldl applyStep s) = true := by
  induction steps with
  | nil => intro s hs; simpa using hs
  | cons step rest ih =>
    intro s hs
    apply ih
    cases step <;>
      simp_all [authConsistent, applyStep]

/-- C8: in every state of the auth store reachable from the initial state
by any sequence of store updates performed by `login`, `register`,
`logout` and `clearError` (including the intermediate loading states),
`isAuthenticated = true` only if both `token` and `user` are non-null. -/
theorem auth_store_consistent (steps : List AuthStep) :
    authConsistent (runAuth steps) = true :=
  authConsistent_foldl steps initialAuthState rfl

/-- C9: `login` is atomic on failure: whenever the login API call or the
subsequent `getCurrentUser` call rejects with message `msg`, `login`
rethrows that error and leaves the store exactly at
`user = null, token = null, isAuthenticated = false, isLoading = false,
error = msg` — never a partially authenticated state. -/
theorem login_failure_atomic (s : AuthState) (loginApi : Except String String)
    (getUserApi : String → Except String User) (msg : String)
    (h : (login s loginApi getUserApi).1 = Except.error msg) :
    (login s loginApi getUserApi).2 =
      { user := none, token := none, isAuthenticated := false,
        isLoading := false, error := some msg } := by
  cases loginApi with
  | error e =>
    simp only [login, applyStep] at h ⊢
    cases h
    rfl
  | ok token =>
    cases hg : getUserApi token with
    | error e =>
      simp only [login, hg, applyStep] at h ⊢
      cases h
      rfl
    | ok user =>
      simp [login, hg, applyStep] at h

/-- Witness for C9 at a concrete failing login call. -/
theorem login_failure_atomic_witness :
    (login initialAuthState (Except.error "Invalid credentials")
        (fun _ => Except.ok ⟨some "1", "testuser", "t@example.com", none⟩)).1 =
      Except.error "Invalid credentials" ∧
    (login initialAuthState (Except.error "Invalid credentials")
        (fun _ => Except.ok ⟨some "1", "testuser", "t@example.com", none⟩)).2 =
      { user := none, token := none, isAuthenticated := false,
        isLoading := false, error := some "Invalid credentials" } :=
  ⟨rfl, login_failure_atomic _ _ _ _ rfl⟩

theorem history_sorted (st : PriceStore) (p : Nat) (s : Option Nat)
    (since : Option Nat) :
    (history st p s since).Pairwise (fun a b => a.observedAt ≤ b.observedAt) := by
  have h := @List.sorted_mergeSort PriceObservation obsLe
    (fun a b c hab hbc => by
      simp only [obsLe, decide_eq_true_eq] at hab hbc ⊢
      omega)
    (fun a b => by
      simp only [obsLe, Bool.or_eq_true, decide_eq_true_eq]
      omega)
    (st.filter (matchesQuery p s since))
  exact h.imp (fun hab => by simpa [obsLe] using hab)

/-- C3: after any sequence of `record()` calls in any order (arbitrary
interleaving of writers is an arbitrary write order), `history` returns
the stored observations in non-decreasing observed-at order, and
`record()` never overwrites or removes an existing observation: every
count is preserved and exactly the recorded observation's count grows
by one. -/
theorem price_store_history_ordered_append_only :
    (∀ (writes : List PriceObservation) (p : Nat) (s : Option Nat)
        (since : Option Nat),
      (history (writes.foldl record ([] : PriceStore)) p s since).Pairwise
        (fun a b => a.observedAt ≤ b.observedAt)) ∧
    (∀ (st : PriceStore) (o o' : PriceObservation),
      (record st o).count o' = st.count o' + (if o' = o then 1 else 0)) := by
  constructor
  · intro writes p s since
    exact history_sorted _ p s since
  · intro st o o'
    by_cases h : o' = o
    · subst h
      simp [record, List.count_append]
    · simp [record, List.count_append, List.count_cons, h]

theorem matchesQuery_none_fun (p : Nat) :
    matchesQuery p none none = fun o => o.productId == p := by
  funext o
  simp [matchesQuery]

theorem merge_filter_length (st : PriceStore) (a b : Nat) (hab : a ≠ b) :
    ((mergeObservations st a b).filter (matchesQuery b none none)).length =
      (st.filter (matchesQuery a none none)).length +
        (st.filter (matchesQuery b none none)).length := by
  simp only [matchesQuery_none_fun]
  induction st with
  | nil => rfl
  | cons o rest ih =>
    simp only [mergeObservations, List.map_cons, List.filter_cons] at ih ⊢
    by_cases h : o.productId = a
    · have e1 : (({ o with productId := b } : PriceObservation).productId == b)
        = true := by simp
      have e2 : (o.productId == a) = true := by simp [h]
      have e3 : (o.productId == b) = false := by simp [h, hab]
      simp only [if_pos h, e1, e2, e3, if_true, Bool.false_eq_true, if_false,
        List.length_cons]
      omega
    · have e2 : (o.productId == a) = false := by simp [h]
      by_cases hb : o.productId = b
      · have e1 : (o.productId == b) = true := by simp [hb]
        simp only [if_neg h, e1, e2, if_true, Bool.false_eq_true, if_false,
          List.length_cons]
        omega
      · have e1 : (o.productId == b) = false := by simp [hb]
        simp only [if_neg h, e1, e2, Bool.false_eq_true, if_false]
        omega

/-- C4: merging Product A into Product B (A ≠ B, two distinct products)
yields a state where the surviving product B's observation count equals
the sum of A's and B's observation counts before the merge. -/
theorem merge_preserves_observation_count (st : PriceStore) (a b : Nat)
    (hab : a ≠ b) :
    (history (mergeObservations st a b) b none none).length =
      (history st a none none).length + (history st b none none).length := by
  simp only [history, List.length_mergeSort]
  exact merge_filter_length st a b hab

/-- Witness for C4 at a concrete merge of product 1 into product 2. -/
theorem merge_preserves_observation_count_witness :
    (1 : Nat) ≠ 2 ∧
    (history (mergeObservations demoStore 1 2) 2 none none).length =
      (history demoStore 1 none none).length +
        (history demoStore 2 none none).length :=
  ⟨by decide, merge_preserves_observation_count demoStore 1 2 (by decide)⟩

theorem tokenOverlapScore_le (q a : Finset String) : tokenOverlapScore q a ≤ 100 := by
  unfold tokenOverlapScore
  have hsub : (q ∩ a).card ≤ (q ∪ a).card :=
    Finset.card_le_card (Finset.inter_subset_union)
  rcases Nat.eq_zero_or_pos (q ∪ a).card with h0 | h0
  · simp [h0]
  · calc 100 * (q ∩ a).card / (q ∪ a).card
        ≤ 100 * (q ∪ a).card / (q ∪ a).card :=
          Nat.div_le_div_right (Nat.mul_le_mul_left _ hsub)
      _ = 100 := Nat.mul_div_cancel _ h0

theorem aliasScore_le (q a : String) : aliasScore q a ≤ 100 := by
  unfold aliasScore
  split
  · exact Nat.le_refl _
  · exact tokenOverlapScore_le _ _

theorem foldrMax_le (l : List Nat) (h : ∀ x ∈ l, x ≤ 100) :
    l.foldr max 0 ≤ 100 := by
  induction l with
  | nil => simp
  | cons x xs ih =>
    simp only [List.foldr_cons]
    have h1 := h x (by simp)
    have h2 := ih (fun y hy => h y (by simp [hy]))
    omega

theorem prodScore_le (q : String) (p : Product) : prodScore q p ≤ 100 := by
  unfold prodScore
  exact foldrMax_le _ (by
    intro x hx
    obtain ⟨a, _, rfl⟩ := List.mem_map.mp hx
    exact aliasScore_le q a)

theorem prodScore_congr (q1 q2 : String) (p : Product)
    (hc : canonicalTokens q1 = canonicalTokens q2) :
    prodScore q1 p = prodScore q2 p := by
  have h : aliasScore q1 = aliasScore q2 := by
    funext a
    unfold aliasScore
    rw [hc]
  unfold prodScore
  rw [h]

theorem prodScore_attached (q name : String) (p : Product)
    (hc : canonicalTokens q = canonicalTokens name) :
    prodScore q { p with aliases := name :: p.aliases } = 100 := by
  unfold prodScore
  simp only [List.map_cons, List.foldr_cons]
  have h1 : aliasScore q name = 100 := by
    unfold aliasScore
    rw [if_pos hc]
  rw [h1]
  have h2 : (p.aliases.map (aliasScore q)).foldr max 0 ≤ 100 :=
    foldrMax_le _ (by
      intro x hx
      obtain ⟨a, _, rfl⟩ := List.mem_map.mp hx
      exact aliasScore_le q a)
  omega

theorem pickBest_none (q : String) (l : List Product) :
    pickBest q l = none ↔ l = [] := by
  cases l with
  | nil => simp [pickBest]
  | cons p ps =>
    simp only [pickBest]
    constructor
    · intro h
      cases hps : pickBest q ps with
      | none => simp [hps] at h
      | some rs =>
        obtain ⟨r, s⟩ := rs
        rw [hps] at h
        by_cases hc : s ≤ prodScore q p <;> simp [hc] at h
    · intro h
      cases h

theorem pickBest_spec (q : String) :
    ∀ (l : List Product) (r : Product) (s : Nat),
      pickBest q l = some (r, s) →
        r ∈ l ∧ s = prodScore q r ∧ ∀ p ∈ l, prodScore q p ≤ s := by
  intro l
  induction l with
  | nil => intro r s h; cases h
  | cons p ps ih =>
    intro r s h
    simp only [pickBest] at h
    cases hps : pickBest q ps with
    | none =>
      rw [hps] at h
      dsimp only at h
      injection h with h'
      injection h' with h1 h2
      subst h1; subst h2
      have hempty : ps = [] := (pickBest_none q ps).mp hps
      subst hempty
      exact ⟨by simp, rfl, by simp⟩
    | some rs =>
      obtain ⟨r', s'⟩ := rs
      rw [hps] at h
      dsimp only at h
      have hspec := ih r' s' hps
      by_cases hc : s' ≤ prodScore q p
      · rw [if_pos hc] at h
        injection h with h'
        injection h' with h1 h2
        subst h1; subst h2
        refine ⟨by simp, rfl, ?_⟩
        intro x hx
        rcases List.mem_cons.mp hx with hx | hx
        · subst hx; exact Nat.le_refl _
        · exact Nat.le_trans (hspec.2.2 x hx) hc
      · rw [if_neg hc] at h
        injection h with h'
        injection h' with h1 h2
        subst h1; subst h2
        refine ⟨by simp [hspec.1], hspec.2.1, ?_⟩
        intro x hx
        rcases List.mem_cons.mp hx with hx | hx
        · subst hx; omega
        · exact hspec.2.2 x hx

theorem pickBest_after_attach (name name2 : String) (t : Nat)
    (hc : canonicalTokens name2 = canonicalTokens name) :
    ∀ (l : List Product) (r : Product) (s : Nat),
      pickBest name l = some (r, s) → r.pid = t →
      ∃ r2, pickBest name2 (l.map (updateFn t name)) = some (r2, 100) ∧
        r2.pid = t := by
  intro l
  induction l with
  | nil => intro r s h _; cases h
  | cons p ps ih =>
    intro r s h hrt
    simp only [pickBest] at h
    have hupd : ∀ x : Product, x.pid = t →
        prodScore name2 (updateFn t name x) = 100 := by
      intro x hx
      unfold updateFn
      rw [if_pos hx]
      exact prodScore_attached name2 name x hc
    have hsame : ∀ x : Product, x.pid ≠ t →
        prodScore name2 (updateFn t name x) = prodScore name x := by
      intro x hx
      unfold updateFn
      rw [if_neg hx]
      exact prodScore_congr name2 name x hc
    have hpidpres : ∀ x : Product, (updateFn t name x).pid = x.pid := by
      intro x
      unfold updateFn
      split <;> simp_all
    cases hps : pickBest name ps with
    | none =>
      rw [hps] at h
      dsimp only at h
      injection h with h'
      injection h' with h1 h2
      subst h1
      have hempty : ps = [] := (pickBest_none name ps).mp hps
      subst hempty
      refine ⟨updateFn t name p, ?_, by rw [hpidpres]; exact hrt⟩
      simp only [List.map_cons, List.map_nil, pickBest]
      rw [hupd p hrt]
    | some rs =>
      obtain ⟨r', s'⟩ := rs
      rw [hps] at h
      dsimp only at h
      have hspec' := pickBest_spec name ps r' s' hps
      by_cases hcmp : s' ≤ prodScore name p
      · rw [if_pos hcmp] at h
        injection h with h'
        injection h' with h1 h2
        subst h1
        refine ⟨updateFn t name p, ?_, by rw [hpidpres]; exact hrt⟩
        cases hps2 : pickBest name2 (ps.map (updateFn t name)) with
        | none =>
          simp only [List.map_cons, pickBest, hps2]
          rw [hupd p hrt]
        | some rs2 =>
          obtain ⟨r2', s2'⟩ := rs2
          have hspec2 := pickBest_spec name2 _ r2' s2' hps2
          have hb : s2' ≤ 100 := by
            rw [hspec2.2.1]
            exact prodScore_le _ _
          simp only [List.map_cons, pickBest, hps2]
          rw [hupd p hrt, if_pos hb]
      · rw [if_neg hcmp] at h
        injection h with h'
        injection h' with h1 h2
        subst h1; subst h2
        obtain ⟨r2, hr2, hr2pid⟩ := ih r' s' hps hrt
        by_cases hpt : p.pid = t
        · refine ⟨updateFn t name p, ?_, by rw [hpidpres]; exact hpt⟩
          simp only [List.map_cons, pickBest, hr2]
          rw [hupd p hpt, if_pos (by omega)]
        · refine ⟨r2, ?_, hr2pid⟩
          simp only [List.map_cons, pickBest, hr2]
          have hlt : prodScore name p < s' := by omega
          have hs100 : s' ≤ 100 := by
            rw [pickBest_spec name ps r' s' hps |>.2.1]
            exact prodScore_le _ _
          rw [hsame p hpt, if_neg (by omega)]

theorem pickBest_appended (q : String) (newP : Product)
    (h100 : prodScore q newP = 100) :
    ∀ l : List Product, (∀ p ∈ l, prodScore q p < 100) →
      pickBest q (l ++ [newP]) = some (newP, 100) := by
  intro l
  induction l with
  | nil =>
    intro _
    simp only [List.nil_append, pickBest]
    rw [h100]
  | cons p ps ih =>
    intro h
    have ht := ih (fun x hx => h x (by simp [hx]))
    have hp := h p (by simp)
    rw [List.cons_append]
    simp only [pickBest, List.append_eq, ht]
    rw [if_neg (by omega)]

/-- C5: the Product Resolver is idempotent: for every catalog state and
every listing, resolving the listing once and then resolving a listing
with the same canonical name against the resulting catalog yields the
same Product id both times, for any match threshold within the score
range (threshold ≤ 100, the maximal similarity score). -/
theorem resolver_idempotent (c : Catalog) (name name2 : String)
    (threshold : Nat) (hth : threshold ≤ 100)
    (hc : canonicalTokens name2 = canonicalTokens name) :
    (resolveListing (resolveListing c name threshold).2 name2 threshold).1 =
      (resolveListing c name threshold).1 := by
  have hnew100 : prodScore name2 (newProduct c.nextId name) = 100 := by
    unfold prodScore newProduct
    simp only [List.map_cons, List.map_nil, List.foldr_cons, List.foldr_nil]
    have h1 : aliasScore name2 name = 100 := by
      unfold aliasScore
      rw [if_pos hc]
    rw [h1]
    omega
  cases hp : pickBest name c.products with
  | none =>
    have hempty : c.products = [] := (pickBest_none name _).mp hp
    have happ := pickBest_appended name2 _ hnew100 c.products
      (by rw [hempty]; intro p hp2; cases hp2)
    have h1 : resolveListing c name threshold =
        (c.nextId,
          Catalog.mk (c.products ++ [newProduct c.nextId name]) (c.nextId + 1)) := by
      simp only [resolveListing, hp]
    rw [h1]
    simp only [resolveListing]
    rw [happ]
    dsimp only
    rw [if_pos hth]
    rfl
  | some rs =>
    obtain ⟨r, s⟩ := rs
    have hspec := pickBest_spec name c.products r s hp
    by_cases hts : threshold ≤ s
    · obtain ⟨r2, hr2, hpid⟩ :=
        pickBest_after_attach name name2 r.pid hc c.products r s hp rfl
      have h1 : resolveListing c name threshold =
          (r.pid, attachAlias c r.pid name) := by
        simp only [resolveListing, hp]
        rw [if_pos hts]
      rw [h1]
      simp only [resolveListing, attachAlias]
      rw [hr2]
      dsimp only
      rw [if_pos hth]
      exact hpid
    · have hlt : ∀ p ∈ c.products, prodScore name2 p < 100 := by
        intro p hpmem
        have h1 : prodScore name p ≤ s := hspec.2.2 p hpmem
        have h2 : prodScore name2 p = prodScore name p :=
          prodScore_congr name2 name p hc
        omega
      have happ := pickBest_appended name2 _ hnew100 c.products hlt
      have h1 : resolveListing c name threshold =
          (c.nextId,
            Catalog.mk (c.products ++ [newProduct c.nextId name]) (c.nextId + 1)) := by
        simp only [resolveListing, hp]
        rw [if_neg hts]
      rw [h1]
      simp only [resolveListing]
      rw [happ]
      dsimp only
      rw [if_pos hth]
      rfl

/-- Witness for C5 at a concrete listing resolved against the empty
catalog with threshold 60. -/
theorem resolver_idempotent_witness :
    (60 : Nat) ≤ 100 ∧
    canonicalTokens "Whole Milk 1L" = canonicalTokens "Whole Milk 1L" ∧
    (resolveListing
        (resolveListing { products := [], nextId := 0 } "Whole Milk 1L" 60).2
        "Whole Milk 1L" 60).1 =
      (resolveListing { products := [], nextId := 0 } "Whole Milk 1L" 60).1 :=
  ⟨by decide, rfl,
    resolver_idempotent { products := [], nextId := 0 } "Whole Milk 1L"
      "Whole Milk 1L" 60 (by decide) rfl⟩

theorem rankedLe_trans (a b c : RankedPrice) (h1 : rankedLe a b = true)
    (h2 : rankedLe b c = true) : rankedLe a c = true := by
  simp only [rankedLe, Bool.or_eq_true, Bool.and_eq_true, decide_eq_true_eq,
    beq_iff_eq] at h1 h2 ⊢
  rcases h1 with h1 | ⟨h1, h1s⟩ <;> rcases h2 with h2 | ⟨h2, h2s⟩ <;>
    first
      | (left; omega)
      | (right; constructor <;> omega)

theorem rankedLe_total (a b : RankedPrice) :
    (rankedLe a b || rankedLe b a) = true := by
  simp only [rankedLe, Bool.or_eq_true, Bool.and_eq_true, decide_eq_true_eq,
    beq_iff_eq]
  omega

theorem rankProduct_pairwise (st : PriceStore) (now window p : Nat) :
    (rankProduct st now window p).Pairwise (fun a b => rankedLe a b = true) := by
  exact @List.sorted_mergeSort RankedPrice rankedLe
    (fun a b c hab hbc => rankedLe_trans a b c hab hbc)
    (fun a b => rankedLe_total a b)
    (((productStoreIds st p).filterMap (latestForStore st p)).map
      (toRanked now window))

theorem sortedByEffectivePrice_of_pairwise (l : List RankedPrice)
    (h : l.Pairwise (fun a b => rankedLe a b = true)) :
    sortedByEffectivePrice l = true := by
  induction l with
  | nil => rfl
  | cons a tail ih =>
    cases tail with
    | nil => rfl
    | cons b rest =>
      rw [List.pairwise_cons] at h
      have hab := h.1 b (by simp)
      have ht := ih h.2
      simp only [sortedByEffectivePrice, hab, ht, Bool.and_self]

/-- C1: for every fixed snapshot of price observations and every query,
every result list of the Comparison Engine is sorted ascending by
normalized price-per-unit where unit data is available, else by raw
price, with equal-price entries ordered by store id, and two calls of
`compareByName` on the same snapshot return identical orderings. -/
theorem compareByName_sorted_deterministic :
    ∀ (st : PriceStore) (cat : Catalog) (query : String)
      (threshold now window limit : Nat),
      ((compareByName st cat query threshold now window limit).all
        (fun r => sortedByEffectivePrice r.prices)) = true ∧
      compareByName st cat query threshold now window limit =
        compareByName st cat query threshold now window limit := by
  intro st cat query threshold now window limit
  refine ⟨?_, rfl⟩
  rw [List.all_eq_true]
  intro r hr
  simp only [compareByName, List.mem_map] at hr
  obtain ⟨p, _, rfl⟩ := hr
  apply sortedByEffectivePrice_of_pairwise
  exact ((rankProduct_pairwise st now window p.pid).sublist
    (List.take_sublist _ _))

theorem ingestStore_filter (batches : List (Nat × AdapterOutcome)) :
    ∀ st : PriceStore,
      ingestStore st batches =
        ingestStore st (batches.filter (fun b => isFetched b.2)) := by
  induction batches with
  | nil => intro st; rfl
  | cons b bs ih =>
    intro st
    obtain ⟨sid, outcome⟩ := b
    cases outcome with
    | fetched items =>
      have hcond : isFetched ((sid, AdapterOutcome.fetched items)).2 = true := rfl
      simp only [ingestStore, List.filter_cons, hcond, eq_self_iff_true,
        if_true]
      exact ih _
    | failed err =>
      have hcond : isFetched ((sid, AdapterOutcome.failed err)).2 = false := rfl
      simp only [ingestStore, List.filter_cons, hcond, Bool.false_eq_true,
        if_false]
      exact ih st

/-- C7: comparison queries never fail because of ingestion failures for
unrelated stores: after any ingestion sweep in which some stores'
adapters have permanently failed, a comparison query returns exactly the
data it would have returned had the failed runs not happened (only the
successful batches contribute), the run summary reports exactly the
failed stores, and every returned entry carries its freshness flag. -/
theorem comparison_unaffected_by_ingestion_failures :
    ∀ (st : PriceStore) (batches : List (Nat × AdapterOutcome))
      (cat : Catalog) (query : String) (threshold now window limit : Nat),
      compareByName (runIngestion st batches).1 cat query threshold now
          window limit =
        compareByName
          (runIngestion st (batches.filter (fun b => isFetched b.2))).1
          cat query threshold now window limit ∧
      (runIngestion st batches).2 =
        (batches.filter (fun b => !isFetched b.2)).map (fun b => b.1) ∧
      ((compareByName (runIngestion st batches).1 cat query threshold now
          window limit).all
        (fun r => r.prices.all
          (fun e => e.stale == decide (e.observedAt + window < now)))) = true := by
  intro st batches cat query threshold now window limit
  refine ⟨?_, rfl, ?_⟩
  · simp only [runIngestion]
    rw [ingestStore_filter batches st]
  · rw [List.all_eq_true]
    intro r hr
    simp only [compareByName, List.mem_map] at hr
    obtain ⟨p, _, rfl⟩ := hr
    rw [List.all_eq_true]
    intro e he
    have he2 : e ∈ rankProduct (runIngestion st batches).1 now window p.pid :=
      List.take_subset _ _ he
    simp only [rankProduct, List.mem_mergeSort, List.mem_map] at he2
    obtain ⟨o, _, rfl⟩ := he2
    simp [toRanked]

/-- C6: for every product whose observation history contains fewer
observations than the configured minimum training count, a forecast
request returns the `insufficientData` result rather than a forecast or
an error. -/
theorem forecast_insufficient_data (cfg : PredictorConfig) (p now : Nat)
    (st : PriceStore)
    (h : (history st p none none).length < cfg.minObservations) :
    requestForecast cfg p now st = .insufficientData := by
  unfold requestForecast
  rw [if_pos h]

/-- Witness for C6: a product with only 2 historical observations under
the default configuration yields `insufficientData`. -/
theorem forecast_insufficient_data_witness :
    (history twoObsStore 1 none none).length <
      defaultPredictorConfig.minObservations ∧
    requestForecast defaultPredictorConfig 1 7 twoObsStore =
      .insufficientData := by
  have hlen : (history twoObsStore 1 none none).length <
      defaultPredictorConfig.minObservations := by
    simp only [history, List.length_mergeSort]
    decide
  exact ⟨hlen, forecast_insufficient_data defaultPredictorConfig 1 7
    twoObsStore hlen⟩

theorem charToDigit_digitChar (d : Nat) (hd : d < 10) :
    charToDigit (digitChar d) = some d := by
  interval_cases d <;> rfl

theorem digitChar_not_stripped (d : Nat) :
    isStrippedChar (digitChar d) = false := by
  by_cases h : d < 10
  · interval_cases d <;> decide
  · have hm : min d 10 = 10 := by omega
    unfold digitChar
    rw [hm]
    decide

theorem digitChar_ne_dot (d : Nat) : digitChar d ≠ '.' := by
  by_cases h : d < 10
  · interval_cases d <;> decide
  · have hm : min d 10 = 10 := by omega
    unfold digitChar
    rw [hm]
    decide

theorem toDigitsFuel_mem : ∀ (f n : Nat) (c : Char),
    c ∈ toDigitsFuel f n → ∃ d, c = digitChar d := by
  intro f
  induction f with
  | zero => intro n c h; cases h
  | succ f ih =>
    intro n c h
    rw [toDigitsFuel] at h
    by_cases hn : n < 10
    · rw [if_pos hn] at h
      simp only [List.mem_singleton] at h
      exact ⟨n, h⟩
    · rw [if_neg hn] at h
      rcases List.mem_append.mp h with h | h
      · exact ih _ _ h
      · simp only [List.mem_singleton] at h
        exact ⟨n % 10, h⟩

theorem toDigitsFuel_congr : ∀ (n f g : Nat), n ≤ f → n ≤ g →
    toDigitsFuel (f + 1) n = toDigitsFuel (g + 1) n := by
  intro n
  induction n using Nat.strong_induction_on with
  | _ n ih =>
    intro f g hf hg
    by_cases h10 : n < 10
    · rw [toDigitsFuel, toDigitsFuel, if_pos h10, if_pos h10]
    · rw [toDigitsFuel, toDigitsFuel, if_neg h10, if_neg h10]
      obtain ⟨f2, rfl⟩ : ∃ f2, f = f2 + 1 := ⟨f - 1, by omega⟩
      obtain ⟨g2, rfl⟩ : ∃ g2, g = g2 + 1 := ⟨g - 1, by omega⟩
      congr 1
      exact ih (n / 10) (by omega) f2 g2 (by omega) (by omega)

theorem natDigits_small (n : Nat) (h : n < 10) :
    natDigits n = [digitChar n] := by
  rw [natDigits, toDigitsFuel, if_pos h]

theorem natDigits_step (n : Nat) (h : ¬ n < 10) :
    natDigits n = natDigits (n / 10) ++ [digitChar (n % 10)] := by
  rw [natDigits, toDigitsFuel, if_neg h]
  congr 1
  obtain ⟨n2, rfl⟩ : ∃ n2, n = n2 + 1 := ⟨n - 1, by omega⟩
  exact toDigitsFuel_congr ((n2 + 1) / 10) n2 ((n2 + 1) / 10) (by omega)
    (by omega)

theorem parse_fold_natDigits : ∀ n a : Nat,
    (natDigits n).foldl pstep (some a) =
      some (a * 10 ^ (natDigits n).length + n) := by
  intro n
  induction n using Nat.strong_induction_on with
  | _ n ih =>
    intro a
    by_cases h10 : n < 10
    · rw [natDigits_small n h10]
      simp only [List.foldl_cons, List.foldl_nil, List.length_cons,
        List.length_nil, pstep, charToDigit_digitChar n h10]
      rw [pow_one]
    · rw [natDigits_step n h10]
      rw [List.foldl_append]
      rw [ih (n / 10) (by omega) a]
      simp only [List.foldl_cons, List.foldl_nil, pstep,
        charToDigit_digitChar (n % 10) (by omega : n % 10 < 10)]
      rw [List.length_append, List.length_singleton]
      congr 1
      calc (a * 10 ^ (natDigits (n / 10)).length + n / 10) * 10 + n % 10
          = a * (10 ^ (natDigits (n / 10)).length * 10) +
              (n / 10 * 10 + n % 10) := by ring
        _ = a * 10 ^ ((natDigits (n / 10)).length + 1) + n := by
            rw [← pow_succ]
            congr 1
            omega

theorem parse_natDigits (n : Nat) : parseDigits (natDigits n) = some n := by
  rw [parseDigits, parse_fold_natDigits n 0]
  simp

theorem splitAtDot_append (r : List Char) :
    ∀ l : List Char, '.' ∉ l →
      splitAtDot (l ++ '.' :: r) = (l, some r) := by
  intro l
  induction l with
  | nil => intro _; simp [splitAtDot]
  | cons c cs ih =>
    intro h
    have hc : ¬ c = '.' := fun hh => h (by simp [hh])
    simp only [List.cons_append, splitAtDot, if_neg hc, List.append_eq]
    rw [ih (fun hm => h (by simp [hm]))]

theorem filter_not_stripped (l : List Char)
    (h : ∀ c ∈ l, isStrippedChar c = false) :
    l.filter (fun c => !isStrippedChar c) = l := by
  induction l with
  | nil => rfl
  | cons c cs ih =>
    have hc := h c (by simp)
    simp only [List.filter_cons, hc, Bool.not_false, if_true]
    rw [ih (fun x hx => h x (by simp [hx]))]

theorem normalize_render (n : Nat) :
    normalizePrice (renderLocale (n : Int)) = some (n : Int) := by
  have hdata : (renderLocale (n : Int)).data =
      natDigits (n / 100) ++
        ['.', digitChar (n % 100 / 10), digitChar (n % 10)] := by
    simp [renderLocale]
  have hnostrip : ∀ c ∈ (renderLocale (n : Int)).data,
      isStrippedChar c = false := by
    rw [hdata]
    intro c hc
    rcases List.mem_append.mp hc with hc | hc
    · obtain ⟨d, rfl⟩ := toDigitsFuel_mem _ _ c hc
      exact digitChar_not_stripped d
    · simp only [List.mem_cons, List.mem_singleton] at hc
      rcases hc with rfl | rfl | rfl | hc
      · decide
      · exact digitChar_not_stripped _
      · exact digitChar_not_stripped _
      · cases hc
  have hfilter : (renderLocale (n : Int)).data.filter
      (fun c => !isStrippedChar c) = (renderLocale (n : Int)).data :=
    filter_not_stripped _ hnostrip
  have hnodot : '.' ∉ natDigits (n / 100) := by
    intro hmem
    obtain ⟨d, hd⟩ := toDigitsFuel_mem _ _ _ hmem
    exact digitChar_ne_dot d hd.symm
  have hsplit : splitAtDot ((renderLocale (n : Int)).data) =
      (natDigits (n / 100),
        some [digitChar (n % 100 / 10), digitChar (n % 10)]) := by
    rw [hdata]
    exact splitAtDot_append _ _ hnodot
  have hne : ((renderLocale (n : Int)).data).isEmpty = false := by
    rw [hdata]
    cases natDigits (n / 100) <;> rfl
  have hfp : parseDigits [digitChar (n % 100 / 10), digitChar (n % 10)] =
      some (n % 100 / 10 * 10 + n % 10) := by
    simp only [parseDigits, List.foldl_cons, List.foldl_nil, pstep,
      charToDigit_digitChar (n % 100 / 10) (by omega : n % 100 / 10 < 10),
      charToDigit_digitChar (n % 10) (by omega : n % 10 < 10)]
    congr 1
    omega
  unfold normalizePrice
  rw [hfilter, hne]
  rw [if_neg (by simp)]
  rw [hsplit]
  dsimp only
  rw [if_neg (by norm_num)]
  rw [parse_natDigits (n / 100), hfp]
  simp only [List.length_cons, List.length_nil]
  norm_num
  omega

theorem normalizePrice_natCast (s : String) (m : Int)
    (h : normalizePrice s = some m) : ∃ n : Nat, m = (n : Int) := by
  unfold normalizePrice at h
  split at h
  · cases h
  · split at h
    · rcases Option.map_eq_some'.mp h with ⟨k, _, hm⟩
      exact ⟨k * 100, by rw [← hm]; push_cast; ring⟩
    · split at h
      · cases h
      · split at h
        · injection h with h2
          exact ⟨_, h2.symm⟩
        · cases h

/-- C2: for every raw listing whose price string is parseable, the
Normalizer's output price is a non-negative fixed-point integer in minor
currency units, and re-rendering that value in the locale price format
and normalizing again yields the same integer minor-units value. -/
theorem normalizer_roundtrip (s : String) (m : Int)
    (h : normalizePrice s = some m) :
    0 ≤ m ∧ normalizePrice (renderLocale m) = some m := by
  obtain ⟨n, rfl⟩ := normalizePrice_natCast s m h
  exact ⟨Int.natCast_nonneg n, normalize_render n⟩

/-- Witness for C2 at a concrete raw price string. -/
theorem normalizer_roundtrip_witness :
    normalizePrice "$1,299.99" = some 129999 ∧
    0 ≤ (129999 : Int) ∧
    normalizePrice (renderLocale 129999) = some 129999 := by
  have h : normalizePrice "$1,299.99" = some 129999 := by decide
  exact ⟨h, (normalizer_roundtrip _ _ h).1, (normalizer_roundtrip _ _ h).2⟩

end GroceryFinder
